import Mathlib

/-!
Verification of the chasset content-addressed blob store:
a shallow embedding of the digest encoding (`src/lib.rs`), the loose-file
store (`src/loose_files.rs`) and the archive set (`src/archive.rs`),
with theorems about the behaviour of the embedded operations.
-/

set_option maxRecDepth 4000

/-! ## Bit-string helpers

`data_encoding`'s base32 works MSB-first on a bit stream; we model bytes
and base32 code units through explicit bit lists. -/

/-- The `k`-bit big-endian (MSB-first) bit representation of `n % 2^k`. -/
def natToBits : Nat → Nat → List Bool
  | 0, _ => []
  | k + 1, n => natToBits k (n / 2) ++ [n % 2 == 1]

/-- Read a bit list MSB-first as a natural number. -/
def bitsToNat (l : List Bool) : Nat :=
  l.foldl (fun a b => 2 * a + b.toNat) 0

theorem natToBits_length (k n : Nat) : (natToBits k n).length = k := by
  induction k generalizing n with
  | zero => rfl
  | succ k ih => simp [natToBits, ih]

theorem bitsToNat_append_bit (xs : List Bool) (b : Bool) :
    bitsToNat (xs ++ [b]) = 2 * bitsToNat xs + b.toNat := by
  simp [bitsToNat, List.foldl_append]

theorem bitsToNat_natToBits (k n : Nat) :
    bitsToNat (natToBits k n) = n % 2 ^ k := by
  induction k generalizing n with
  | zero => simp [natToBits, bitsToNat, Nat.mod_one]
  | succ k ih =>
    rw [natToBits, bitsToNat_append_bit, ih]
    have h2 : n % 2 = (n % 2^(k+1)) % 2 :=
      (Nat.mod_mod_of_dvd n (dvd_pow_self 2 k.succ_ne_zero)).symm
    have hdiv : n / 2 % 2 ^ k = n % (2 * 2 ^ k) / 2 :=
      (Nat.mod_mul_right_div_self n 2 (2 ^ k)).symm
    have hpow : 2 * 2 ^ k = 2 ^ (k + 1) := (pow_succ' 2 k).symm
    rw [hdiv, hpow]
    have hb : (n % 2 == 1).toNat = n % 2 := by
      rcases Nat.mod_two_eq_zero_or_one n with h | h <;> simp [h]
    rw [hb, h2]
    omega

theorem bitsToNat_lt (l : List Bool) : bitsToNat l < 2 ^ l.length := by
  induction l using List.reverseRecOn with
  | nil => simp [bitsToNat]
  | append_singleton xs b ih =>
    rw [bitsToNat_append_bit]
    have : b.toNat ≤ 1 := Bool.toNat_le b
    simp only [List.length_append, List.length_singleton, pow_succ]
    omega

theorem natToBits_bitsToNat (l : List Bool) :
    natToBits l.length (bitsToNat l) = l := by
  induction l using List.reverseRecOn with
  | nil => rfl
  | append_singleton xs b ih =>
    rw [bitsToNat_append_bit]
    simp only [List.length_append, List.length_singleton]
    rw [natToBits]
    have hdiv : (2 * bitsToNat xs + b.toNat) / 2 = bitsToNat xs := by
      rcases b <;> simp [Nat.mul_add_div]
    have hmod : ((2 * bitsToNat xs + b.toNat) % 2 == 1) = b := by
      rcases b <;> simp [Nat.mul_add_mod]
    rw [hdiv, hmod, ih]

/-- Worker for `chunksOf`: `acc` is the current partial chunk and `c` the
capacity left in it; structural recursion on the input list so that the
kernel can evaluate it. -/
def chunksAux (k : Nat) : List α → List α → Nat → List (List α)
  | [], acc, _ => if acc.isEmpty then [] else [acc]
  | _ :: _, _, 0 => []
  | x :: xs, acc, 1 => (acc ++ [x]) :: chunksAux k xs [] k
  | x :: xs, acc, c + 2 => chunksAux k xs (acc ++ [x]) (c + 1)

/-- Split a list into consecutive chunks of `k` elements (the final chunk
may be shorter); `chunksOf 0 l = []`. -/
def chunksOf (k : Nat) (l : List α) : List (List α) :=
  match k with
  | 0 => []
  | k + 1 => chunksAux (k + 1) l [] (k + 1)

theorem chunksOf_nil (k : Nat) : chunksOf k ([] : List α) = [] := by
  cases k <;> rfl

theorem chunksAux_spec (k : Nat) :
    ∀ (l acc : List α) (c : Nat), c ≠ 0 → l ≠ [] →
      chunksAux k l acc c = (acc ++ l.take c) :: chunksAux k (l.drop c) [] k := by
  intro l
  induction l with
  | nil => intro acc c _ hl; exact absurd rfl hl
  | cons x xs ih =>
    intro acc c hc _
    match c with
    | 0 => exact absurd rfl hc
    | 1 =>
      rw [chunksAux]
      simp
    | c + 2 =>
      rw [chunksAux]
      by_cases hxs : xs = []
      · subst hxs
        rw [chunksAux]
        simp [chunksAux]
      · rw [ih (acc ++ [x]) (c + 1) (by omega) hxs]
        simp

theorem chunksOf_eq_cons {k : Nat} {l : List α} (hk : k ≠ 0) (hl : l ≠ []) :
    chunksOf k l = l.take k :: chunksOf k (l.drop k) := by
  cases k with
  | zero => exact absurd rfl hk
  | succ k =>
    show chunksAux (k + 1) l [] (k + 1) = _
    rw [chunksAux_spec (k + 1) l [] (k + 1) (by omega) hl]
    rfl

theorem chunksOf_append_of_length {k : Nat} {l : List α} (rest : List α)
    (hk : k ≠ 0) (hl : l.length = k) :
    chunksOf k (l ++ rest) = l :: chunksOf k rest := by
  have hne : l ++ rest ≠ [] := by
    intro h
    rcases List.append_eq_nil.mp h with ⟨h1, _⟩
    subst h1
    simp at hl
    omega
  rw [chunksOf_eq_cons hk hne, List.take_left' hl, List.drop_left' hl]

theorem chunksOf_flatMap {k : Nat} (hk : k ≠ 0) (f : α → List β) (l : List α)
    (hf : ∀ x ∈ l, (f x).length = k) :
    chunksOf k (l.flatMap f) = l.map f := by
  induction l with
  | nil => simp [chunksOf_nil]
  | cons x xs ih =>
    rw [List.flatMap_cons, chunksOf_append_of_length _ hk (hf x (by simp))]
    rw [ih (fun y hy => hf y (by simp [hy]))]
    rfl

theorem join_chunksOf_aux (k : Nat) (hk : k ≠ 0) :
    ∀ (n : Nat) (l : List α), l.length ≤ n → (chunksOf k l).flatten = l := by
  intro n
  induction n with
  | zero =>
    intro l hl
    have : l = [] := List.length_eq_zero.mp (Nat.le_zero.mp hl)
    simp [this, chunksOf_nil]
  | succ n ih =>
    intro l hl
    by_cases hnil : l = []
    · simp [hnil, chunksOf_nil]
    · rw [chunksOf_eq_cons hk hnil, List.flatten_cons]
      have hpos : 0 < l.length := List.length_pos.mpr hnil
      have : (l.drop k).length ≤ n := by
        simp only [List.length_drop]
        omega
      rw [ih _ this, List.take_append_drop]

theorem join_chunksOf (k : Nat) (l : List α) (hk : k ≠ 0) :
    (chunksOf k l).flatten = l :=
  join_chunksOf_aux k hk l.length l le_rfl

theorem length_mem_chunksOf_aux {k : Nat} (hk : k ≠ 0) :
    ∀ (n : Nat) (l : List α), l.length ≤ n → k ∣ l.length →
      ∀ c ∈ chunksOf k l, c.length = k := by
  intro n
  induction n with
  | zero =>
    intro l hl _ c hc
    have : l = [] := List.length_eq_zero.mp (Nat.le_zero.mp hl)
    simp [this, chunksOf_nil] at hc
  | succ n ih =>
    intro l hl hdvd c hc
    by_cases hnil : l = []
    · simp [hnil, chunksOf_nil] at hc
    · rw [chunksOf_eq_cons hk hnil] at hc
      have hpos : 0 < l.length := List.length_pos.mpr hnil
      have hge : k ≤ l.length := Nat.le_of_dvd hpos hdvd
      rcases List.mem_cons.mp hc with hc | hc
      · rw [hc, List.length_take]
        omega
      · have h1 : (l.drop k).length ≤ n := by
          simp only [List.length_drop]
          omega
        have h2 : k ∣ (l.drop k).length := by
          simp only [List.length_drop]
          exact Nat.dvd_sub' hdvd (dvd_refl k)
        exact ih _ h1 h2 c hc

theorem length_mem_chunksOf {k : Nat} {l : List α} (hk : k ≠ 0)
    (hdvd : k ∣ l.length) : ∀ c ∈ chunksOf k l, c.length = k :=
  length_mem_chunksOf_aux hk l.length l le_rfl hdvd

theorem length_chunksOf_aux {k : Nat} (hk : k ≠ 0) :
    ∀ (n : Nat) (l : List α), l.length ≤ n → k ∣ l.length →
      (chunksOf k l).length = l.length / k := by
  intro n
  induction n with
  | zero =>
    intro l hl _
    have : l = [] := List.length_eq_zero.mp (Nat.le_zero.mp hl)
    simp [this, chunksOf_nil]
  | succ n ih =>
    intro l hl hdvd
    by_cases hnil : l = []
    · simp [hnil, chunksOf_nil]
    · rw [chunksOf_eq_cons hk hnil]
      have hpos : 0 < l.length := List.length_pos.mpr hnil
      have hge : k ≤ l.length := Nat.le_of_dvd hpos hdvd
      have h1 : (l.drop k).length ≤ n := by
        simp only [List.length_drop]
        omega
      have h2 : k ∣ (l.drop k).length := by
        simp only [List.length_drop]
        exact Nat.dvd_sub' hdvd (dvd_refl k)
      rw [List.length_cons, ih _ h1 h2]
      simp only [List.length_drop]
      rcases hdvd with ⟨m, hm⟩
      have hkpos : 0 < k := Nat.pos_of_ne_zero hk
      have hm1 : m ≠ 0 := by
        rintro rfl
        rw [Nat.mul_zero] at hm
        omega
      rw [hm]
      have hsub : k * m - k = k * (m - 1) := by
        cases m with
        | zero => omega
        | succ m =>
          simp only [Nat.mul_succ, Nat.succ_sub_one]
          omega
      rw [hsub, Nat.mul_div_cancel_left _ hkpos, Nat.mul_div_cancel_left _ hkpos]
      omega

theorem length_chunksOf {k : Nat} {l : List α} (hk : k ≠ 0)
    (hdvd : k ∣ l.length) : (chunksOf k l).length = l.length / k :=
  length_chunksOf_aux hk l.length l le_rfl hdvd

theorem length_flatMap_const {k : Nat} (f : α → List β) (l : List α)
    (hf : ∀ x ∈ l, (f x).length = k) : (l.flatMap f).length = k * l.length := by
  induction l with
  | nil => simp
  | cons x xs ih =>
    rw [List.flatMap_cons, List.length_append, hf x (by simp),
      ih (fun y hy => hf y (by simp [hy]))]
    simp [Nat.mul_succ]
    omega

/-! ## Base32 without padding (the `data_encoding` `BASE32_NOPAD` encoding
used by `src/lib.rs` for the human-readable hash form and by
`src/loose_files.rs` for on-disk paths). -/

def base32Alphabet : List Char := "ABCDEFGHIJKLMNOPQRSTUVWXYZ234567".toList

/-- The distinguishing kind of a `data_encoding::DecodeError`. -/
inductive DecodeError
  | length
  | symbol
  | trailing
deriving DecidableEq

def base32PadBits (bits : List Bool) : List Bool :=
  bits ++ List.replicate ((5 - bits.length % 5) % 5) false

def base32Encode (bytes : List Nat) : List Char :=
  (chunksOf 5 (base32PadBits (bytes.flatMap (natToBits 8)))).map
    (fun c => base32Alphabet.getD (bitsToNat c) 'A')

/-- `BASE32_NOPAD.decode_len`: rejects impossible unpadded lengths, else
gives the decoded byte count. -/
def base32DecodeLen (n : Nat) : Except DecodeError Nat :=
  if n % 8 = 1 ∨ n % 8 = 3 ∨ n % 8 = 6 then .error .length
  else .ok (n * 5 / 8)

def charIndex (c : Char) : Option Nat :=
  base32Alphabet.indexOf? c

/-- `BASE32_NOPAD.decode_mut`: canonical decode, rejecting foreign symbols
and nonzero trailing bits. -/
def base32DecodeMut (s : List Char) : Except DecodeError (List Nat) :=
  match s.mapM charIndex with
  | none => .error .symbol
  | some vs =>
    let bits := vs.flatMap (natToBits 5)
    let outLen := s.length * 5 / 8
    if (bits.drop (outLen * 8)).any (fun b => b) then .error .trailing
    else .ok ((chunksOf 8 (bits.take (outLen * 8))).map bitsToNat)

/-- `BASE32_NOPAD.decode`: length check, then canonical decode. -/
def base32Decode (s : List Char) : Except DecodeError (List Nat) :=
  match base32DecodeLen s.length with
  | .error e => .error e
  | .ok _ => base32DecodeMut s

/-! ## `Hash` and `HashKind` (src/lib.rs) -/

/-- Size of output used for `HashKind::Blake2b`. -/
def BLAKE2B_LEN : Nat := 25

/-- The algorithm used by a hash. -/
inductive HashKind
  | blake2b
deriving DecidableEq

/-- A hash uniquely identifying some data; bytes are `Nat`s below 256. -/
inductive Hash
  | blake2b (bytes : List Nat)
deriving DecidableEq

def Hash.kind : Hash → HashKind
  | .blake2b _ => .blake2b

def Hash.bytes : Hash → List Nat
  | .blake2b xs => xs

def HashKind.name : HashKind → List Char
  | .blake2b => "blake2b".toList

def HashKind.len : HashKind → Nat
  | .blake2b => BLAKE2B_LEN

def HashKind.id : HashKind → Nat
  | .blake2b => 0

def HashKind.from_id : Nat → Option HashKind
  | 0 => some .blake2b
  | _ + 1 => none

/-- `impl FromStr for HashKind`; `none` models `Err(UnknownKind)`. -/
def HashKind.ofName (s : List Char) : Option HashKind :=
  if s = "blake2b".toList then some .blake2b else none

/-- Invalid hash length for given hash kind. -/
inductive InvalidLength
  | invalidLength
deriving DecidableEq

/-- `Hash::from_bytes`. -/
def Hash.from_bytes (kind : HashKind) (bytes : List Nat) :
    Except InvalidLength Hash :=
  match kind with
  | .blake2b =>
    if bytes.length ≠ BLAKE2B_LEN then .error .invalidLength
    else .ok (.blake2b bytes)

/-- `Hash::parse`: decode the human-readable value for a known kind. -/
def Hash.parse (kind : HashKind) (s : List Char) : Except DecodeError Hash :=
  match kind with
  | .blake2b =>
    match base32DecodeLen s.length with
    | .error e => .error e
    | .ok n =>
      if n ≠ 25 then .error .length
      else
        match base32DecodeMut s with
        | .error e => .error e
        | .ok data => .ok (.blake2b data)

/-- Errors in the human-readable hash encoding. -/
inductive HashParseError
  | missingDelimiter
  | unknownKind (s : List Char)
  | malformedValue (e : DecodeError)
deriving DecidableEq

/-- `s.find(':')` together with the two slices around the first `':'`. -/
def splitColon : List Char → Option (List Char × List Char)
  | [] => none
  | c :: cs =>
    if c = ':' then some ([], cs)
    else (splitColon cs).map (fun p => (c :: p.1, p.2))

/-- `impl FromStr for Hash`. -/
def Hash.from_str (s : List Char) : Except HashParseError Hash :=
  match splitColon s with
  | none => .error .missingDelimiter
  | some (pre, suf) =>
    match HashKind.ofName pre with
    | none => .error (.unknownKind pre)
    | some k => (Hash.parse k suf).mapError .malformedValue

/-- `impl fmt::Display for Hash`: `<kind-name>:<base32-no-pad(bytes)>`. -/
def Hash.toString (h : Hash) : List Char :=
  h.kind.name ++ ':' :: base32Encode h.bytes

/-! ## Blake2b (the `blake2` crate as used through `Hasher`)

A direct functional model of BLAKE2b (RFC 7693) with variable output
length `nn` and no key, operating on byte lists. -/

def blake2IV : List Nat :=
  [0x6A09E667F3BCC908, 0xBB67AE8584CAA73B, 0x3C6EF372FE94F82B,
   0xA54FF53A5F1D36F1, 0x510E527FADE682D1, 0x9B05688C2B3E6C1F,
   0x1F83D9ABFB41BD6B, 0x5BE0CD19137E2179]

def blake2Sigma : List (List Nat) :=
  [[0, 1, 2, 3, 4, 5, 6, 7, 8, 9, 10, 11, 12, 13, 14, 15],
   [14, 10, 4, 8, 9, 15, 13, 6, 1, 12, 0, 2, 11, 7, 5, 3],
   [11, 8, 12, 0, 5, 2, 15, 13, 10, 14, 3, 6, 7, 1, 9, 4],
   [7, 9, 3, 1, 13, 12, 11, 14, 2, 6, 5, 10, 4, 0, 15, 8],
   [9, 0, 5, 7, 2, 4, 10, 15, 14, 1, 11, 12, 6, 8, 3, 13],
   [2, 12, 6, 10, 0, 11, 8, 3, 4, 13, 7, 5, 15, 14, 1, 9],
   [12, 5, 1, 15, 14, 13, 4, 10, 0, 7, 6, 3, 9, 2, 8, 11],
   [13, 11, 7, 14, 12, 1, 3, 9, 5, 0, 15, 4, 8, 6, 2, 10],
   [6, 15, 14, 9, 11, 3, 0, 8, 12, 2, 13, 7, 1, 4, 10, 5],
   [10, 2, 8, 4, 7, 6, 1, 5, 15, 11, 9, 14, 3, 12, 13, 0]]

def add64 (a b : Nat) : Nat := (a + b) % 2 ^ 64

def rotr64 (x n : Nat) : Nat := x / 2 ^ n + x % 2 ^ n * 2 ^ (64 - n)

def vget (v : List Nat) (i : Nat) : Nat := v.getD i 0

/-- The BLAKE2b `G` mixing function acting on working-vector indices
`a b c d` with message words `x y`. -/
def blake2G (v : List Nat) (a b c d x y : Nat) : List Nat :=
  let va := add64 (add64 (vget v a) (vget v b)) x
  let vd := rotr64 (Nat.xor (vget v d) va) 32
  let vc := add64 (vget v c) vd
  let vb := rotr64 (Nat.xor (vget v b) vc) 24
  let va2 := add64 (add64 va vb) y
  let vd2 := rotr64 (Nat.xor vd va2) 16
  let vc2 := add64 vc vd2
  let vb2 := rotr64 (Nat.xor vb vc2) 63
  (((v.set a va2).set b vb2).set c vc2).set d vd2

def blake2Round (m : List Nat) (v : List Nat) (i : Nat) : List Nat :=
  let s := blake2Sigma.getD (i % 10) []
  let mi := fun j => m.getD (s.getD j 0) 0
  let v := blake2G v 0 4 8 12 (mi 0) (mi 1)
  let v := blake2G v 1 5 9 13 (mi 2) (mi 3)
  let v := blake2G v 2 6 10 14 (mi 4) (mi 5)
  let v := blake2G v 3 7 11 15 (mi 6) (mi 7)
  let v := blake2G v 0 5 10 15 (mi 8) (mi 9)
  let v := blake2G v 1 6 11 12 (mi 10) (mi 11)
  let v := blake2G v 2 7 8 13 (mi 12) (mi 13)
  blake2G v 3 4 9 14 (mi 14) (mi 15)

def bytesToWord64LE (bs : List Nat) : Nat :=
  bs.foldr (fun b acc => acc * 256 + b) 0

def word64ToBytesLE (w : Nat) : List Nat :=
  (List.range 8).map (fun i => w / 2 ^ (8 * i) % 256)

def blockWords (block : List Nat) : List Nat :=
  (chunksOf 8 block).map bytesToWord64LE

/-- The BLAKE2b compression function `F(h, m, t, f)`. -/
def blake2Compress (h : List Nat) (block : List Nat) (t : Nat) (f : Bool) :
    List Nat :=
  let m := blockWords block
  let v := h ++ blake2IV
  let v := v.set 12 (Nat.xor (vget v 12) (t % 2 ^ 64))
  let v := v.set 13 (Nat.xor (vget v 13) (t / 2 ^ 64))
  let v := if f then v.set 14 (Nat.xor (vget v 14) (2 ^ 64 - 1)) else v
  let v := (List.range 12).foldl (blake2Round m) v
  (List.range 8).map (fun i => Nat.xor (vget h i) (Nat.xor (vget v i) (vget v (i + 8))))

def padBlock (c : List Nat) : List Nat :=
  c ++ List.replicate (128 - c.length) 0

def blake2Blocks (msg : List Nat) : List (List Nat) :=
  if msg = [] then [List.replicate 128 0] else (chunksOf 128 msg).map padBlock

def blake2Loop (h : List Nat) (blocks : List (List Nat))
    (processed total : Nat) : List Nat :=
  match blocks with
  | [] => h
  | [b] => blake2Compress h b total true
  | b :: rest =>
    blake2Loop (blake2Compress h b (processed + 128) false) rest
      (processed + 128) total

/-- BLAKE2b with digest length `nn` bytes, no key, of a byte list. -/
def blake2b (nn : Nat) (msg : List Nat) : List Nat :=
  let h0 := blake2IV.set 0
    (Nat.xor (vget blake2IV 0) (Nat.lor 0x01010000 nn))
  let hf := blake2Loop h0 (blake2Blocks msg) 0 msg.length
  (hf.flatMap word64ToBytesLE).take nn


/-! ## Hasher (src/lib.rs)

An incremental accumulator; finalising hashes the concatenation of all
processed byte runs at `BLAKE2B_LEN` output bytes. -/

structure Hasher where
  hkind : HashKind
  acc : List Nat
deriving DecidableEq

def Hasher.new (kind : HashKind) : Hasher := ⟨kind, []⟩

/-- `Hasher::process`: incrementally hash `bytes`. -/
def Hasher.process (h : Hasher) (bytes : List Nat) : Hasher :=
  ⟨h.hkind, h.acc ++ bytes⟩

/-- `Hasher::result`: the hash of all processed bytes. -/
def Hasher.result (h : Hasher) : Hash :=
  match h.hkind with
  | .blake2b => .blake2b (blake2b BLAKE2B_LEN h.acc)

/-! ## Loose-file store (src/loose_files.rs)

The filesystem is an association list from paths (component lists) to
file contents; the first entry for a path is the live one. Directories
are implicit (`create_dir`/`create_dir_all` succeed silently or are
injected as failures where a claim concerns them). -/

abbrev FsPath := List (List Char)

abbrev Fs := List (FsPath × List Nat)

def fsFind (p : FsPath) : Fs → Option (List Nat)
  | [] => none
  | (q, v) :: rest => if q = p then some v else fsFind p rest

def fsErase (p : FsPath) : Fs → Fs
  | [] => []
  | (q, v) :: rest =>
    if q = p then fsErase p rest else (q, v) :: fsErase p rest

def fsInsert (p : FsPath) (v : List Nat) (fs : Fs) : Fs :=
  (p, v) :: fsErase p fs

/-- Append to the live entry of an open file. -/
def fsAppendFile (p : FsPath) (data : List Nat) : Fs → Fs
  | [] => []
  | (q, v) :: rest =>
    if q = p then (q, v ++ data) :: rest
    else (q, v) :: fsAppendFile p data rest

/-- `fs::rename src dst` on the happy path (source exists). -/
def fsRename (src dst : FsPath) (fs : Fs) : Fs :=
  match fsFind src fs with
  | none => fs
  | some v => fsInsert dst v (fsErase src fs)

/-- `path_for`: `<root>/<kind-name>/<first 2 base32 chars>/<rest>`. -/
def path_for (root : FsPath) (h : Hash) : FsPath :=
  let s := base32Encode h.bytes
  root ++ [h.kind.name, s.take 2, s.drop 2]

/-- A staging area for streaming data into the repository. -/
structure LooseFiles.Writer where
  hasher : Option Hasher
  path : FsPath
deriving DecidableEq

def tempDirName : List Char := "temp".toList

/-- Rust `format!("{:08X}", n)`: uppercase hex, zero-padded to width 8. -/
def hexDigitU (d : Nat) : Char :=
  "0123456789ABCDEF".toList.getD d '0'

def hexDigitsUGo : Nat → Nat → List Char
  | 0, _ => []
  | fuel + 1, n =>
    if n = 0 then [] else hexDigitsUGo fuel (n / 16) ++ [hexDigitU (n % 16)]

def hexDigitsU (n : Nat) : List Char :=
  hexDigitsUGo n n

def format08X (n : Nat) : List Char :=
  let ds := if n = 0 then ['0'] else hexDigitsU n
  List.replicate (8 - ds.length) '0' ++ ds

/-- `LooseFiles::make_writer`, with the stream of values produced by
`rand::random::<u64>()` passed in explicitly ( `none` = stream
exhausted, standing in for the unbounded retry loop). -/
def LooseFiles.make_writer (randoms : List Nat) (root : FsPath) (fs : Fs) :
    Option (LooseFiles.Writer × Fs) :=
  match randoms with
  | [] => none
  | r :: rs =>
    let p := root ++ [tempDirName, format08X r]
    if (fsFind p fs).isSome then LooseFiles.make_writer rs root fs
    else some (⟨some (Hasher.new .blake2b), p⟩, fsInsert p [] fs)

/-- `impl io::Write for Writer`: the OS reports `written` bytes written;
exactly that prefix lands in the file and is fed to the hasher. -/
def LooseFiles.Writer.write (w : LooseFiles.Writer) (fs : Fs) (buf : List Nat) (written : Nat) :
    LooseFiles.Writer × Fs :=
  (⟨w.hasher.map (fun h => h.process (buf.take written)), w.path⟩,
   fsAppendFile w.path (buf.take written) fs)

/-- One `Writer.write` call as seen from outside: either the OS wrote a
(possibly short) prefix, or the write failed and nothing changed. -/
inductive WriteEvent
  | wrote (buf : List Nat) (written : Nat)
  | failed (buf : List Nat)
deriving DecidableEq

def LooseFiles.Writer.writeStep (wf : LooseFiles.Writer × Fs) (e : WriteEvent) :
    LooseFiles.Writer × Fs :=
  match e with
  | .wrote buf written => wf.1.write wf.2 buf written
  | .failed _ => wf

/-- `Writer::store` with failure injection for its three fallible steps
(`create_dir_all`, `sync_data`, `rename`).  The hasher is taken first in
every outcome, exactly as in the source. -/
def LooseFiles.Writer.store (w : LooseFiles.Writer) (fs : Fs)
    (failDirs failSync failRename : Bool) :
    LooseFiles.Writer × Fs × Except Unit Hash :=
  let hash := (w.hasher.getD (Hasher.new .blake2b)).result
  let w2 : LooseFiles.Writer := ⟨none, w.path⟩
  let root := w.path.dropLast.dropLast
  let dest := path_for root hash
  if failDirs then (w2, fs, .error ())
  else if failSync then (w2, fs, .error ())
  else if failRename then (w2, fs, .error ())
  else (w2, fsRename w.path dest fs, .ok hash)

/-- `impl Drop for Writer`: best-effort temp-file removal, only while the
hasher is still present; `delOk` is whether `fs::remove_file` succeeded
(its result is discarded either way). -/
def LooseFiles.Writer.drop (w : LooseFiles.Writer) (delOk : Bool) (fs : Fs) : Fs :=
  if w.hasher.isSome then (if delOk then fsErase w.path fs else fs) else fs

/-- `LooseFiles::put`: stage, copy everything, commit; the writer is
dropped (already committed) before returning. -/
def LooseFiles.put (randoms : List Nat) (root : FsPath) (fs : Fs)
    (data : List Nat) : Option (Fs × Hash) :=
  match LooseFiles.make_writer randoms root fs with
  | none => none
  | some (w, fs1) =>
    let wf := w.write fs1 data data.length
    match wf.1.store wf.2 false false false with
    | (w3, fs3, .ok h) => some (w3.drop true fs3, h)
    | (_, _, .error _) => none

/-- `LooseFiles::get`: memory-map the file at the digest's path; the
asset's bytes are the file's contents. -/
def LooseFiles.get (root : FsPath) (fs : Fs) (h : Hash) : Option (List Nat) :=
  fsFind (path_for root h) fs

/-! ## Archive set (src/archive.rs)

A `carchive` file is modelled by its parse status, its (optional) 2-byte
vendor extension, its declared key length and its key-value entries. -/

abbrev Archive := List (List Nat × List Nat)

structure ArchiveFile where
  parseOk : Bool
  ext : Option (Nat × Nat)
  key_len : Nat
  entries : Archive
deriving DecidableEq

/-- The hash kind an archive declares through its 2-byte little-endian
extension field. -/
def archiveKind (f : ArchiveFile) : Option HashKind :=
  match f.ext with
  | none => none
  | some (lo, hi) => HashKind.from_id (Nat.lor lo (Nat.shiftLeft hi 8))

abbrev Groups := List (HashKind × List Archive)

/-- `archives.entry(kind).or_insert_with(Vec::new).push(archive)`. -/
def groupsInsert (k : HashKind) (a : Archive) : Groups → Groups
  | [] => [(k, [a])]
  | (k2, al) :: rest =>
    if k2 = k then (k2, al ++ [a]) :: rest
    else (k2, al) :: groupsInsert k a rest

def groupsFind (k : HashKind) : Groups → Option (List Archive)
  | [] => none
  | (k2, al) :: rest => if k2 = k then some al else groupsFind k rest

/-- `ArchiveSet::open` over the directory's files, in `read_dir` order. -/
def ArchiveSet.openGo (files : List ArchiveFile) (acc : Groups) :
    Except (List Char) Groups :=
  match files with
  | [] => .ok acc
  | f :: rest =>
    if ¬ f.parseOk then .error "invalid archive".toList
    else
      match f.ext with
      | none => .error "invalid archive".toList
      | some (lo, hi) =>
        match HashKind.from_id (Nat.lor lo (Nat.shiftLeft hi 8)) with
        | none => .error "archive uses unknown hash kind".toList
        | some k =>
          if k.len ≠ f.key_len then
            .error "archive key length doesn't match hash type".toList
          else ArchiveSet.openGo rest (groupsInsert k f.entries acc)

def ArchiveSet.open (files : List ArchiveFile) : Except (List Char) Groups :=
  ArchiveSet.openGo files []

/-- `carchive::Reader::get`: point lookup of a key. -/
def archiveLookup (key : List Nat) : Archive → Option (List Nat)
  | [] => none
  | (k2, v) :: rest => if k2 = key then some v else archiveLookup key rest

/-- The scan inside `ArchiveSet::get`: first match in open order wins. -/
def scanArchives (key : List Nat) : List Archive → Option (List Nat)
  | [] => none
  | a :: rest =>
    match archiveLookup key a with
    | some v => some v
    | none => scanArchives key rest

/-- `ArchiveSet::get`. -/
def ArchiveSet.get (gs : Groups) (h : Hash) : Option (List Nat) :=
  match groupsFind h.kind gs with
  | none => none
  | some al => scanArchives h.bytes al


deriving instance DecidableEq for Except

/-! ## Lemmas: base32 round-trip -/

theorem charIndex_getD : ∀ v < 32, charIndex (base32Alphabet.getD v 'A') = some v := by
  decide

theorem mapM_charIndex_map (vs : List Nat) (hvs : ∀ v ∈ vs, v < 32) :
    (vs.map (fun v => base32Alphabet.getD v 'A')).mapM charIndex = some vs := by
  induction vs with
  | nil => rfl
  | cons v vs ih =>
    rw [List.map_cons, List.mapM_cons, charIndex_getD v (hvs v (by simp)),
      ih (fun y hy => hvs y (by simp [hy]))]
    rfl

theorem mapM_option_length {f : α → Option β} :
    ∀ {l : List α} {l2 : List β}, l.mapM f = some l2 → l2.length = l.length := by
  intro l
  induction l with
  | nil =>
    intro l2 h
    have h2 : some ([] : List β) = some l2 := h
    cases h2
    rfl
  | cons a l ih =>
    intro l2 h
    rw [List.mapM_cons] at h
    cases hfa : f a with
    | none => rw [hfa] at h; simp at h
    | some x =>
      rw [hfa] at h
      cases hml : l.mapM f with
      | none => rw [hml] at h; simp at h
      | some xs =>
        rw [hml] at h
        simp at h
        rw [← h, List.length_cons, List.length_cons, ih hml]

theorem base32DecodeMut_encode (b : List Nat) (hlen : b.length = 25)
    (hby : ∀ x ∈ b, x < 256) :
    base32DecodeMut (base32Encode b) = .ok b := by
  have hbits_each : ∀ x ∈ b, (natToBits 8 x).length = 8 := fun x _ => natToBits_length 8 x
  have hbl : (b.flatMap (natToBits 8)).length = 200 := by
    rw [length_flatMap_const _ _ hbits_each, hlen]
  have hpad : base32PadBits (b.flatMap (natToBits 8)) = b.flatMap (natToBits 8) := by
    rw [base32PadBits, hbl]
    simp
  have hdvd : (5 : Nat) ∣ (b.flatMap (natToBits 8)).length := by
    rw [hbl]
    exact ⟨40, rfl⟩
  have hck : ∀ c ∈ chunksOf 5 (b.flatMap (natToBits 8)), c.length = 5 :=
    length_mem_chunksOf (by norm_num) hdvd
  have henc : base32Encode b =
      ((chunksOf 5 (b.flatMap (natToBits 8))).map bitsToNat).map
        (fun v => base32Alphabet.getD v 'A') := by
    rw [base32Encode, hpad, List.map_map]
    rfl
  have hv32 : ∀ v ∈ (chunksOf 5 (b.flatMap (natToBits 8))).map bitsToNat, v < 32 := by
    intro v hv
    rcases List.mem_map.mp hv with ⟨c, hc, rfl⟩
    have hlt := bitsToNat_lt c
    rw [hck c hc] at hlt
    simpa using hlt
  have hmap : (base32Encode b).mapM charIndex =
      some ((chunksOf 5 (b.flatMap (natToBits 8))).map bitsToNat) := by
    rw [henc]
    exact mapM_charIndex_map _ hv32
  have hlen40 : (base32Encode b).length = 40 := by
    rw [henc, List.length_map, List.length_map, length_chunksOf (by norm_num) hdvd, hbl]
  have hbits2 : ((chunksOf 5 (b.flatMap (natToBits 8))).map bitsToNat).flatMap (natToBits 5)
      = b.flatMap (natToBits 8) := by
    rw [List.flatMap_def, List.map_map]
    have hcongr : (chunksOf 5 (b.flatMap (natToBits 8))).map
        ((fun v => natToBits 5 v) ∘ bitsToNat) =
        (chunksOf 5 (b.flatMap (natToBits 8))).map id := by
      apply List.map_congr_left
      intro c hc
      have h5 := hck c hc
      simp only [Function.comp, id]
      rw [← h5]
      exact natToBits_bitsToNat c
    rw [hcongr, List.map_id]
    exact join_chunksOf 5 _ (by norm_num)
  unfold base32DecodeMut
  rw [hmap]
  simp only
  rw [hlen40, hbits2]
  have hdrop : (b.flatMap (natToBits 8)).drop (40 * 5 / 8 * 8) = [] := by
    apply List.drop_eq_nil_of_le
    rw [hbl]
  rw [hdrop]
  simp only [List.any_nil, Bool.false_eq_true, if_false]
  have htake : (b.flatMap (natToBits 8)).take (40 * 5 / 8 * 8) = b.flatMap (natToBits 8) := by
    apply List.take_of_length_le
    rw [hbl]
  rw [htake, chunksOf_flatMap (by norm_num) _ _ hbits_each, List.map_map]
  have : b.map (bitsToNat ∘ natToBits 8) = b.map id := by
    apply List.map_congr_left
    intro x hx
    simp only [Function.comp, id]
    rw [bitsToNat_natToBits]
    exact Nat.mod_eq_of_lt (by simpa using hby x hx)
  rw [this, List.map_id]

theorem length_base32Encode (b : List Nat) (hlen : b.length = 25) :
    (base32Encode b).length = 40 := by
  have hbits_each : ∀ x ∈ b, (natToBits 8 x).length = 8 := fun x _ => natToBits_length 8 x
  have hbl : (b.flatMap (natToBits 8)).length = 200 := by
    rw [length_flatMap_const _ _ hbits_each, hlen]
  have hpad : base32PadBits (b.flatMap (natToBits 8)) = b.flatMap (natToBits 8) := by
    rw [base32PadBits, hbl]
    simp
  have hdvd : (5 : Nat) ∣ (b.flatMap (natToBits 8)).length := by
    rw [hbl]
    exact ⟨40, rfl⟩
  rw [base32Encode, hpad, List.length_map, length_chunksOf (by norm_num) hdvd, hbl]

/-! ## Lemmas: splitting at the delimiter -/

theorem splitColon_eq_none {s : List Char} (h : ':' ∉ s) : splitColon s = none := by
  induction s with
  | nil => rfl
  | cons c cs ih =>
    rw [splitColon, if_neg (fun hc => h (by simp [hc])),
      ih (fun hm => h (List.mem_cons_of_mem c hm))]
    rfl

theorem splitColon_append {pre suf : List Char} (h : ':' ∉ pre) :
    splitColon (pre ++ ':' :: suf) = some (pre, suf) := by
  induction pre with
  | nil => simp [splitColon]
  | cons c cs ih =>
    rw [List.cons_append, splitColon, if_neg (fun hc => h (by simp [hc])),
      ih (fun hm => h (List.mem_cons_of_mem c hm))]
    rfl

theorem Hash_parse_encode (b : List Nat) (hlen : b.length = 25)
    (hby : ∀ x ∈ b, x < 256) :
    Hash.parse .blake2b (base32Encode b) = .ok (.blake2b b) := by
  rw [Hash.parse, length_base32Encode b hlen,
    show base32DecodeLen 40 = Except.ok 25 from rfl,
    base32DecodeMut_encode b hlen hby]
  simp

/-- C2: for every valid digest (25-byte blake2b payload), parsing the
human-readable string produced by `toString` — the form
`<algorithm-name>:<base32-no-padding(payload)>` — succeeds and returns an
equal digest. -/
theorem C2_parse_toString_roundtrip (d : Hash) (hlen : d.bytes.length = 25)
    (hby : ∀ x ∈ d.bytes, x < 256) :
    Hash.from_str (Hash.toString d) = .ok d := by
  cases d with
  | blake2b b =>
    simp only [Hash.bytes] at hlen hby
    rw [Hash.toString]
    simp only [Hash.kind, HashKind.name, Hash.bytes]
    rw [Hash.from_str, splitColon_append (by decide)]
    show Except.mapError HashParseError.malformedValue
        (Hash.parse HashKind.blake2b (base32Encode b)) = Except.ok (Hash.blake2b b)
    rw [Hash_parse_encode b hlen hby]
    rfl

/-- C2 witness at the digest with 25 `0xAB` payload bytes. -/
theorem C2_parse_toString_roundtrip_witness :
    Hash.from_str (Hash.toString (Hash.blake2b (List.replicate 25 171))) =
      .ok (Hash.blake2b (List.replicate 25 171)) :=
  C2_parse_toString_roundtrip (Hash.blake2b (List.replicate 25 171))
    (by decide) (by decide)

/-- C3: `from_bytes(tag, bytes)` fails with `InvalidLength` exactly when
`bytes.len()` differs from the tag's fixed output length (25 for
blake2b), and otherwise returns a digest with that tag and exactly those
payload bytes. -/
theorem C3_from_bytes_length_check (kind : HashKind) (b : List Nat) :
    (Hash.from_bytes kind b = .error .invalidLength ↔ b.length ≠ kind.len) ∧
    (b.length = kind.len →
      ∃ h, Hash.from_bytes kind b = .ok h ∧ h.kind = kind ∧ h.bytes = b) := by
  cases kind
  by_cases hb : b.length = 25
  · have hok : Hash.from_bytes .blake2b b = .ok (.blake2b b) := by
      rw [Hash.from_bytes, if_neg (by simp [BLAKE2B_LEN, hb])]
    refine ⟨⟨fun h => ?_, fun h => ?_⟩, fun _ => ⟨.blake2b b, hok, rfl, rfl⟩⟩
    · rw [hok] at h
      exact Except.noConfusion h
    · exact absurd hb (by simpa [HashKind.len, BLAKE2B_LEN] using h)
  · have herr : Hash.from_bytes .blake2b b = .error .invalidLength := by
      rw [Hash.from_bytes, if_pos (by simpa [BLAKE2B_LEN] using hb)]
    refine ⟨⟨fun _ => by simpa [HashKind.len, BLAKE2B_LEN] using hb,
      fun _ => herr⟩,
      fun h => absurd (by simpa [HashKind.len, BLAKE2B_LEN] using h) hb⟩

/-- C3 witness at a 25-byte and (through the iff) a 3-byte input. -/
theorem C3_from_bytes_length_check_witness :
    (Hash.from_bytes .blake2b [0, 1, 2] = .error .invalidLength ↔
      ([0, 1, 2] : List Nat).length ≠ HashKind.blake2b.len) ∧
    (∃ h, Hash.from_bytes .blake2b (List.replicate 25 7) = .ok h ∧
      h.kind = .blake2b ∧ h.bytes = List.replicate 25 7) :=
  ⟨(C3_from_bytes_length_check .blake2b [0, 1, 2]).1,
   (C3_from_bytes_length_check .blake2b (List.replicate 25 7)).2 (by decide)⟩

/-! ## Lemmas: parse failure taxonomy -/

theorem base32DecodeLen_ok {m n : Nat} (h : base32DecodeLen m = .ok n) :
    n = m * 5 / 8 := by
  by_cases hc : m % 8 = 1 ∨ m % 8 = 3 ∨ m % 8 = 6
  · rw [base32DecodeLen, if_pos hc] at h
    exact Except.noConfusion h
  · rw [base32DecodeLen, if_neg hc] at h
    exact (Except.ok.inj h).symm

theorem base32DecodeMut_length {s : List Char} {data : List Nat}
    (h : base32DecodeMut s = .ok data) : data.length = s.length * 5 / 8 := by
  rw [base32DecodeMut] at h
  cases hm : s.mapM charIndex with
  | none => rw [hm] at h; exact Except.noConfusion h
  | some vs =>
    rw [hm] at h
    simp only at h
    by_cases hany :
        ((vs.flatMap (natToBits 5)).drop (s.length * 5 / 8 * 8)).any (fun b => b) = true
    · rw [if_pos hany] at h
      exact Except.noConfusion h
    · rw [if_neg hany] at h
      have hdata := (Except.ok.inj h).symm
      have hvs : vs.length = s.length := mapM_option_length hm
      have hbits : (vs.flatMap (natToBits 5)).length = 5 * s.length := by
        rw [length_flatMap_const _ _ (fun x _ => natToBits_length 5 x), hvs]
      have hle : s.length * 5 / 8 * 8 ≤ (vs.flatMap (natToBits 5)).length := by
        rw [hbits, Nat.mul_comm 5 s.length]
        exact Nat.div_mul_le_self _ _
      have htl : ((vs.flatMap (natToBits 5)).take (s.length * 5 / 8 * 8)).length =
          s.length * 5 / 8 * 8 := by
        rw [List.length_take]
        omega
      have hdvd : (8 : Nat) ∣ ((vs.flatMap (natToBits 5)).take
          (s.length * 5 / 8 * 8)).length := by
        rw [htl]
        exact ⟨s.length * 5 / 8, Nat.mul_comm _ _⟩
      rw [hdata, List.length_map, length_chunksOf (by norm_num) hdvd, htl,
        Nat.mul_div_cancel _ (by norm_num)]

theorem from_str_split {pre : List Char} (suf : List Char) (hpre : ':' ∉ pre)
    {k : HashKind} (hk : HashKind.ofName pre = some k) :
    Hash.from_str (pre ++ ':' :: suf) =
      (Hash.parse k suf).mapError .malformedValue := by
  rw [Hash.from_str, splitColon_append hpre]
  show (match HashKind.ofName pre with
    | none => Except.error (HashParseError.unknownKind pre)
    | some k2 => (Hash.parse k2 suf).mapError HashParseError.malformedValue) = _
  rw [hk]

theorem from_str_split_unknown {pre : List Char} (suf : List Char)
    (hpre : ':' ∉ pre) (hk : HashKind.ofName pre = none) :
    Hash.from_str (pre ++ ':' :: suf) = .error (.unknownKind pre) := by
  rw [Hash.from_str, splitColon_append hpre]
  show (match HashKind.ofName pre with
    | none => Except.error (HashParseError.unknownKind pre)
    | some k2 => (Hash.parse k2 suf).mapError HashParseError.malformedValue) = _
  rw [hk]

theorem Hash_parse_err_decodeLen {s : List Char} {e : DecodeError}
    (h : base32DecodeLen s.length = .error e) :
    Hash.parse .blake2b s = .error e := by
  rw [Hash.parse, h]

theorem Hash_parse_err_badLen {s : List Char} {n : Nat}
    (h : base32DecodeLen s.length = .ok n) (hn : n ≠ 25) :
    Hash.parse .blake2b s = .error .length := by
  rw [Hash.parse, h]
  show (if n ≠ 25 then Except.error DecodeError.length
    else match base32DecodeMut s with
      | .error e => .error e
      | .ok data => .ok (Hash.blake2b data)) = _
  rw [if_pos hn]

theorem Hash_parse_err_mut {s : List Char} {n : Nat} {e : DecodeError}
    (h : base32DecodeLen s.length = .ok n) (hn : n = 25)
    (h2 : base32DecodeMut s = .error e) :
    Hash.parse .blake2b s = .error e := by
  rw [Hash.parse, h]
  show (if n ≠ 25 then Except.error DecodeError.length
    else match base32DecodeMut s with
      | .error e => .error e
      | .ok data => .ok (Hash.blake2b data)) = _
  rw [if_neg (by simp [hn]), h2]

/-- C4: parsing fails with `MissingDelimiter` when the string has no
`':'`; with `UnknownKind` when the prefix before the first `':'` is not a
known algorithm name; and with `MalformedValue` when the suffix is not
valid unpadded base32 or decodes to a length other than the tag's digest
length. -/
theorem C4_from_str_error_cases (s : List Char) :
    (':' ∉ s → Hash.from_str s = .error .missingDelimiter) ∧
    (∀ pre suf, s = pre ++ ':' :: suf → ':' ∉ pre →
      HashKind.ofName pre = none →
      Hash.from_str s = .error (.unknownKind pre)) ∧
    (∀ pre suf k, s = pre ++ ':' :: suf → ':' ∉ pre →
      HashKind.ofName pre = some k →
      (∀ bs, base32Decode suf = .ok bs → bs.length ≠ k.len) →
      ∃ e, Hash.from_str s = .error (.malformedValue e)) := by
  refine ⟨fun h => ?_, fun pre suf hs hpre hk => ?_, fun pre suf k hs hpre hk hcond => ?_⟩
  · rw [Hash.from_str, splitColon_eq_none h]
  · rw [hs]
    exact from_str_split_unknown suf hpre hk
  · rw [hs, from_str_split suf hpre hk]
    cases k
    cases hdl : base32DecodeLen suf.length with
    | error e => exact ⟨e, by rw [Hash_parse_err_decodeLen hdl]; rfl⟩
    | ok n =>
      by_cases hn : n = 25
      · cases hdm : base32DecodeMut suf with
        | error e => exact ⟨e, by rw [Hash_parse_err_mut hdl hn hdm]; rfl⟩
        | ok data =>
          exfalso
          have hfull : base32Decode suf = .ok data := by
            rw [base32Decode, hdl]
            exact hdm
          have hne := hcond data hfull
          have hlen := base32DecodeMut_length hdm
          have hval := base32DecodeLen_ok hdl
          rw [hlen, ← hval, hn] at hne
          exact hne rfl
      · exact ⟨.length, by rw [Hash_parse_err_badLen hdl hn]; rfl⟩

/-- C4 witness: a delimiter-less string, an unknown-prefix string, and a
known-prefix string whose base32 value decodes to the wrong length. -/
theorem C4_from_str_error_cases_witness :
    Hash.from_str ("nocolon".toList) = .error .missingDelimiter ∧
    Hash.from_str ("foo:AA".toList) = .error (.unknownKind ("foo".toList)) ∧
    (∃ e, Hash.from_str ("blake2b:AAAA".toList) = .error (.malformedValue e)) := by
  refine ⟨(C4_from_str_error_cases ("nocolon".toList)).1 (by decide),
    (C4_from_str_error_cases ("foo:AA".toList)).2.1 ("foo".toList) ("AA".toList)
      (by decide) (by decide) (by decide),
    (C4_from_str_error_cases ("blake2b:AAAA".toList)).2.2 ("blake2b".toList)
      ("AAAA".toList) .blake2b (by decide) (by decide) (by decide) ?_⟩
  intro bs h
  rw [show base32Decode ("AAAA".toList) = Except.ok [0, 0] by decide] at h
  have hbs := Except.ok.inj h
  rw [← hbs]
  decide

/-! ## Lemmas: `{:08X}` temp-file names -/

theorem hexDigitsUGo_congr :
    ∀ (f1 f2 n : Nat), n ≤ f1 → n ≤ f2 → hexDigitsUGo f1 n = hexDigitsUGo f2 n := by
  intro f1
  induction f1 with
  | zero =>
    intro f2 n h1 _
    have hn : n = 0 := Nat.le_zero.mp h1
    subst hn
    cases f2 with
    | zero => rfl
    | succ f2 => simp [hexDigitsUGo]
  | succ f1 ih =>
    intro f2 n h1 h2
    by_cases hn : n = 0
    · subst hn
      cases f2 with
      | zero => simp [hexDigitsUGo]
      | succ f2 => simp [hexDigitsUGo]
    · cases f2 with
      | zero => exact absurd (Nat.le_zero.mp h2) hn
      | succ f2 =>
        rw [hexDigitsUGo, if_neg hn, hexDigitsUGo, if_neg hn]
        have hd : n / 16 < n := Nat.div_lt_self (Nat.pos_of_ne_zero hn) (by omega)
        rw [ih f2 (n / 16) (by omega) (by omega)]

theorem hexDigitsU_eq (n : Nat) :
    hexDigitsU n =
      if n = 0 then [] else hexDigitsU (n / 16) ++ [hexDigitU (n % 16)] := by
  by_cases hn : n = 0
  · rw [if_pos hn, hn]
    rfl
  · rw [if_neg hn]
    show hexDigitsUGo n n = _
    cases n with
    | zero => exact absurd rfl hn
    | succ m =>
      rw [hexDigitsUGo, if_neg hn]
      have hd : (m + 1) / 16 < m + 1 := Nat.div_lt_self (by omega) (by omega)
      rw [hexDigitsUGo_congr m ((m + 1) / 16) ((m + 1) / 16) (by omega) le_rfl]
      rfl

theorem hexDigitsU_length_le : ∀ (k n : Nat), n < 16 ^ k → (hexDigitsU n).length ≤ k := by
  intro k
  induction k with
  | zero =>
    intro n hn
    have : n = 0 := by simpa using Nat.lt_one_iff.mp (by simpa using hn)
    rw [this]
    exact le_rfl
  | succ k ih =>
    intro n hn
    rw [hexDigitsU_eq]
    by_cases h0 : n = 0
    · simp [h0]
    · rw [if_neg h0, List.length_append]
      have hlt : n / 16 < 16 ^ k := by
        rw [Nat.div_lt_iff_lt_mul (by omega)]
        calc n < 16 ^ (k + 1) := hn
        _ = 16 ^ k * 16 := by rw [pow_succ]
      have := ih (n / 16) hlt
      simp only [List.length_singleton]
      omega

theorem hexDigitU_mem : ∀ d < 16, hexDigitU d ∈ "0123456789ABCDEF".toList := by
  decide

theorem hexDigitsU_mem (n : Nat) : ∀ c ∈ hexDigitsU n, c ∈ "0123456789ABCDEF".toList := by
  induction n using Nat.strong_induction_on with
  | _ n ih =>
    intro c hc
    rw [hexDigitsU_eq] at hc
    by_cases h0 : n = 0
    · rw [if_pos h0] at hc
      simp at hc
    · rw [if_neg h0] at hc
      rcases List.mem_append.mp hc with hc | hc
      · exact ih (n / 16) (Nat.div_lt_self (Nat.pos_of_ne_zero h0) (by omega)) c hc
      · have hceq : c = hexDigitU (n % 16) := by simpa using hc
        rw [hceq]
        exact hexDigitU_mem (n % 16) (Nat.mod_lt n (by omega))

theorem format08X_length (n : Nat) (h : n < 2 ^ 64) :
    8 ≤ (format08X n).length ∧ (format08X n).length ≤ 16 := by
  rw [format08X]
  have h16 : n < 16 ^ 16 := by
    calc n < 2 ^ 64 := h
    _ = 16 ^ 16 := by norm_num
  by_cases h0 : n = 0
  · simp [h0]
  · rw [if_neg h0]
    have := hexDigitsU_length_le 16 n h16
    simp only [List.length_append, List.length_replicate]
    omega

theorem format08X_mem (n : Nat) :
    ∀ c ∈ format08X n, c ∈ "0123456789ABCDEF".toList := by
  intro c hc
  rw [format08X] at hc
  rcases List.mem_append.mp hc with hc | hc
  · rw [List.eq_of_mem_replicate hc]
    decide
  · by_cases h0 : n = 0
    · rw [if_pos h0] at hc
      simp at hc
      rw [hc]
      decide
    · rw [if_neg h0] at hc
      exact hexDigitsU_mem n c hc

/-- `make_writer` commits to the first random value whose rendered name
is unused, retrying past all colliding ones. -/
theorem make_writer_first_fresh :
    ∀ (rs1 : List Nat) (r : Nat) (rs2 : List Nat) (root : FsPath) (fs : Fs),
      (∀ r2 ∈ rs1, (fsFind (root ++ [tempDirName, format08X r2]) fs).isSome) →
      fsFind (root ++ [tempDirName, format08X r]) fs = none →
      LooseFiles.make_writer (rs1 ++ r :: rs2) root fs =
        some (⟨some (Hasher.new .blake2b), root ++ [tempDirName, format08X r]⟩,
          fsInsert (root ++ [tempDirName, format08X r]) [] fs) := by
  intro rs1
  induction rs1 with
  | nil =>
    intro r rs2 root fs _ hfresh
    rw [List.nil_append, LooseFiles.make_writer, if_neg (by simp [hfresh])]
  | cons r2 rs1 ih =>
    intro r rs2 root fs hcoll hfresh
    rw [List.cons_append, LooseFiles.make_writer,
      if_pos (hcoll r2 (by simp))]
    exact ih r rs2 root fs (fun y hy => hcoll y (by simp [hy])) hfresh

/-- C9 counterexample: the random 64-bit value `2^32` produces the
nine-digit temp-file name `"100000000"`, so the name created by
`make_writer` is not exactly 8 hexadecimal digits. -/
theorem C9_counterexample_nine_digit_name :
    LooseFiles.make_writer [4294967296] [] [] =
      some (⟨some (Hasher.new .blake2b), [tempDirName, "100000000".toList]⟩,
        fsInsert [tempDirName, "100000000".toList] [] []) ∧
    ("100000000".toList).length ≠ 8 := by
  constructor
  · decide
  · decide

/-- C9 (amended): every temp file created by `make_writer` has a name
that is the zero-padded uppercase-hexadecimal rendering of a random
64-bit value — at least 8 and at most 16 hex digits — and on a name
collision `make_writer` retries with a fresh random value until an
unused name is found. -/
theorem C9_temp_names_amended (randoms : List Nat) (root : FsPath) (fs : Fs) :
    (∀ n, n < 2 ^ 64 →
      8 ≤ (format08X n).length ∧ (format08X n).length ≤ 16 ∧
      ∀ c ∈ format08X n, c ∈ "0123456789ABCDEF".toList) ∧
    (∀ rs1 r rs2, randoms = rs1 ++ r :: rs2 →
      (∀ r2 ∈ rs1, (fsFind (root ++ [tempDirName, format08X r2]) fs).isSome) →
      fsFind (root ++ [tempDirName, format08X r]) fs = none →
      LooseFiles.make_writer randoms root fs =
        some (⟨some (Hasher.new .blake2b), root ++ [tempDirName, format08X r]⟩,
          fsInsert (root ++ [tempDirName, format08X r]) [] fs)) := by
  refine ⟨fun n hn => ⟨(format08X_length n hn).1, (format08X_length n hn).2,
    format08X_mem n⟩, fun rs1 r rs2 hr hcoll hfresh => ?_⟩
  rw [hr]
  exact make_writer_first_fresh rs1 r rs2 root fs hcoll hfresh

/-- C9 (amended) witness: the first random value collides, the second is
used; plus the digit bounds at `2^32`. -/
theorem C9_temp_names_amended_witness :
    (8 ≤ (format08X 4294967296).length ∧ (format08X 4294967296).length ≤ 16 ∧
      ∀ c ∈ format08X 4294967296, c ∈ "0123456789ABCDEF".toList) ∧
    LooseFiles.make_writer [0, 1] []
        [([tempDirName, format08X 0], [])] =
      some (⟨some (Hasher.new .blake2b), [tempDirName, format08X 1]⟩,
        fsInsert [tempDirName, format08X 1] []
          [([tempDirName, format08X 0], [])]) :=
  ⟨(C9_temp_names_amended [0, 1] [] [([tempDirName, format08X 0], [])]).1
      4294967296 (by norm_num),
   (C9_temp_names_amended [0, 1] [] [([tempDirName, format08X 0], [])]).2
      [0] 1 [] rfl (by decide) (by decide)⟩

/-! ## Lemmas: the loose-file store -/

theorem fsFind_insert_self (p : FsPath) (v : List Nat) (fs : Fs) :
    fsFind p (fsInsert p v fs) = some v := by
  rw [fsInsert, fsFind, if_pos rfl]

theorem fsFind_appendFile {p : FsPath} {fs : Fs} {v : List Nat} (d : List Nat)
    (h : fsFind p fs = some v) :
    fsFind p (fsAppendFile p d fs) = some (v ++ d) := by
  induction fs with
  | nil => exact Option.noConfusion h
  | cons e rest ih =>
    obtain ⟨q, w⟩ := e
    rw [fsFind] at h
    by_cases hq : q = p
    · rw [if_pos hq] at h
      rw [fsAppendFile, if_pos hq, fsFind, if_pos hq, Option.some.inj h]
    · rw [if_neg hq] at h
      rw [fsAppendFile, if_neg hq, fsFind, if_neg hq]
      exact ih h

theorem store_happy (w : LooseFiles.Writer) (fs : Fs) :
    w.store fs false false false =
      (⟨none, w.path⟩,
       fsRename w.path
         (path_for w.path.dropLast.dropLast
           ((w.hasher.getD (Hasher.new .blake2b)).result)) fs,
       .ok ((w.hasher.getD (Hasher.new .blake2b)).result)) := rfl

theorem dropLast_dropLast_append (l : FsPath) (a b : List Char) :
    ((l ++ [a, b]).dropLast).dropLast = l := by
  have h1 : l ++ [a, b] = (l ++ [a]) ++ [b] := by simp
  rw [h1, List.dropLast_concat, List.dropLast_concat]

theorem make_writer_spec :
    ∀ (randoms : List Nat) (root : FsPath) (fs : Fs) (w : LooseFiles.Writer)
      (fs1 : Fs),
      LooseFiles.make_writer randoms root fs = some (w, fs1) →
      w.hasher = some (Hasher.new .blake2b) ∧
      (∃ name, w.path = root ++ [tempDirName, name]) ∧
      fsFind w.path fs = none ∧ fs1 = fsInsert w.path [] fs := by
  intro randoms
  induction randoms with
  | nil => intro root fs w fs1 h; exact Option.noConfusion h
  | cons r rs ih =>
    intro root fs w fs1 h
    rw [LooseFiles.make_writer] at h
    by_cases hex : (fsFind (root ++ [tempDirName, format08X r]) fs).isSome
    · rw [if_pos hex] at h
      exact ih root fs w fs1 h
    · rw [if_neg hex] at h
      obtain ⟨hw, hfs⟩ := Prod.mk.inj (Option.some.inj h)
      rw [← hw, ← hfs]
      exact ⟨rfl, ⟨format08X r, rfl⟩,
        Option.not_isSome_iff_eq_none.mp hex, rfl⟩

theorem put_eq_of_make_writer {randoms : List Nat} {root : FsPath} {fs : Fs}
    {w : LooseFiles.Writer} {fs1 : Fs}
    (hmw : LooseFiles.make_writer randoms root fs = some (w, fs1))
    (data : List Nat) :
    LooseFiles.put randoms root fs data =
      (match (w.write fs1 data data.length).1.store
          (w.write fs1 data data.length).2 false false false with
        | (w3, fs3, Except.ok hh) => some (w3.drop true fs3, hh)
        | (_, _, Except.error _) => none) := by
  rw [LooseFiles.put, hmw]

/-- C1: whenever `put(b)` succeeds it returns the 200-bit blake2b digest
of exactly `b`, and a subsequent `get` with that digest returns bytes
equal to `b`. -/
theorem C1_put_get_roundtrip (randoms : List Nat) (root : FsPath) (fs : Fs)
    (data : List Nat) (fs2 : Fs) (h : Hash)
    (hput : LooseFiles.put randoms root fs data = some (fs2, h)) :
    h = Hash.blake2b (blake2b BLAKE2B_LEN data) ∧
    LooseFiles.get root fs2 h = some data := by
  cases hmw : LooseFiles.make_writer randoms root fs with
  | none =>
    rw [LooseFiles.put, hmw] at hput
    exact Option.noConfusion hput
  | some wfs =>
    obtain ⟨w, fs1⟩ := wfs
    obtain ⟨wh, wp⟩ := w
    obtain ⟨hhw, ⟨name, hpath⟩, hfresh, hfs1⟩ :=
      make_writer_spec randoms root fs ⟨wh, wp⟩ fs1 hmw
    replace hhw : wh = some (Hasher.new .blake2b) := hhw
    replace hpath : wp = root ++ [tempDirName, name] := hpath
    subst hhw
    subst hpath
    replace hfs1 : fs1 = fsInsert (root ++ [tempDirName, name]) [] fs := hfs1
    subst hfs1
    rw [put_eq_of_make_writer hmw data] at hput
    have hwrite : (⟨some (Hasher.new .blake2b), root ++ [tempDirName, name]⟩ :
        LooseFiles.Writer).write (fsInsert (root ++ [tempDirName, name]) [] fs)
          data data.length =
        (⟨some ⟨.blake2b, data⟩, root ++ [tempDirName, name]⟩,
         fsAppendFile (root ++ [tempDirName, name]) data
           (fsInsert (root ++ [tempDirName, name]) [] fs)) := by
      rw [LooseFiles.Writer.write, List.take_length]
      rfl
    rw [hwrite, store_happy] at hput
    have hput2 :
        some ((fsRename (root ++ [tempDirName, name])
            (path_for ((root ++ [tempDirName, name]).dropLast.dropLast)
              (Hash.blake2b (blake2b BLAKE2B_LEN data)))
            (fsAppendFile (root ++ [tempDirName, name]) data
              (fsInsert (root ++ [tempDirName, name]) [] fs))),
          Hash.blake2b (blake2b BLAKE2B_LEN data)) = some (fs2, h) := hput
    rw [dropLast_dropLast_append root tempDirName name] at hput2
    obtain ⟨hfs2, hh⟩ := Prod.mk.inj (Option.some.inj hput2)
    refine ⟨hh.symm, ?_⟩
    rw [← hfs2, ← hh, LooseFiles.get]
    have hfile : fsFind (root ++ [tempDirName, name])
        (fsAppendFile (root ++ [tempDirName, name]) data
          (fsInsert (root ++ [tempDirName, name]) [] fs)) = some data :=
      fsFind_appendFile data (fsFind_insert_self _ _ _)
    rw [fsRename, hfile]
    exact fsFind_insert_self _ _ _

/-- C1 witness: put the five bytes of `"hello"` into an empty store. -/
theorem C1_put_get_roundtrip_witness :
    ∃ res, LooseFiles.put [0] [] [] [104, 101, 108, 108, 111] = some res ∧
      res.2 = Hash.blake2b (blake2b BLAKE2B_LEN [104, 101, 108, 108, 111]) ∧
      LooseFiles.get [] res.1 res.2 = some [104, 101, 108, 108, 111] := by
  cases hres : LooseFiles.put [0] [] [] [104, 101, 108, 108, 111] with
  | none =>
    exact absurd hres (by decide)
  | some res =>
    obtain ⟨fs2, h⟩ := res
    obtain ⟨h1, h2⟩ := C1_put_get_roundtrip [0] [] [] [104, 101, 108, 108, 111] fs2 h hres
    exact ⟨(fs2, h), rfl, h1, h2⟩

theorem write_steps_inv :
    ∀ (events : List WriteEvent) (w : LooseFiles.Writer) (fs : Fs) (bs : List Nat),
      w.hasher = some ⟨.blake2b, bs⟩ → fsFind w.path fs = some bs →
      (events.foldl LooseFiles.Writer.writeStep (w, fs)).1.path = w.path ∧
      ∃ bs2,
        (events.foldl LooseFiles.Writer.writeStep (w, fs)).1.hasher =
          some ⟨.blake2b, bs2⟩ ∧
        fsFind w.path (events.foldl LooseFiles.Writer.writeStep (w, fs)).2 =
          some bs2 := by
  intro events
  induction events with
  | nil => intro w fs bs hw hf; exact ⟨rfl, bs, hw, hf⟩
  | cons e es ih =>
    intro w fs bs hw hf
    rw [List.foldl_cons]
    cases e with
    | failed buf => exact ih w fs bs hw hf
    | wrote buf n =>
      have hw2 : ((w.write fs buf n).1).hasher =
          some ⟨.blake2b, bs ++ buf.take n⟩ := by
        rw [LooseFiles.Writer.write]
        simp only [hw]
        rfl
      have hp2 : ((w.write fs buf n).1).path = w.path := rfl
      have hf2 : fsFind ((w.write fs buf n).1).path ((w.write fs buf n).2) =
          some (bs ++ buf.take n) := by
        rw [hp2]
        exact fsFind_appendFile _ hf
      obtain ⟨hpp, bs2, hh2, hff2⟩ :=
        ih (w.write fs buf n).1 (w.write fs buf n).2 (bs ++ buf.take n) hw2 hf2
      exact ⟨hpp.trans hp2, bs2, hh2, by rw [← hp2]; exact hff2⟩

/-- C5: after any sequence of `Writer.write` calls, the hasher has
processed exactly the bytes actually appended to the temp file (short
writes feed only the written prefix), so the digest produced by `store`
is the digest of the bytes durable in the file. -/
theorem C5_hasher_matches_file (events : List WriteEvent) (p : FsPath)
    (fs0 : Fs) (h0 : fsFind p fs0 = some []) :
    ∃ bs,
      (events.foldl LooseFiles.Writer.writeStep
        (⟨some (Hasher.new .blake2b), p⟩, fs0)).1.hasher = some ⟨.blake2b, bs⟩ ∧
      fsFind p (events.foldl LooseFiles.Writer.writeStep
        (⟨some (Hasher.new .blake2b), p⟩, fs0)).2 = some bs ∧
      ((events.foldl LooseFiles.Writer.writeStep
          (⟨some (Hasher.new .blake2b), p⟩, fs0)).1.store
        (events.foldl LooseFiles.Writer.writeStep
          (⟨some (Hasher.new .blake2b), p⟩, fs0)).2 false false false).2.2 =
        .ok (Hash.blake2b (blake2b BLAKE2B_LEN bs)) := by
  obtain ⟨hpath, bs, hh, hf⟩ := write_steps_inv events
    ⟨some (Hasher.new .blake2b), p⟩ fs0 [] rfl h0
  refine ⟨bs, hh, hf, ?_⟩
  rw [store_happy]
  simp only [hh, Option.getD_some]
  rfl

/-- C5 witness: two short writes and one failed write. -/
theorem C5_hasher_matches_file_witness :
    let events : List WriteEvent :=
      [WriteEvent.wrote [1, 2, 3] 2, WriteEvent.failed [9],
        WriteEvent.wrote [4, 5] 2]
    let p : FsPath := [List.replicate 4 't']
    let fs0 : Fs := [([List.replicate 4 't'], [])]
    ∃ bs,
      (events.foldl LooseFiles.Writer.writeStep
        (⟨some (Hasher.new .blake2b), p⟩, fs0)).1.hasher = some ⟨.blake2b, bs⟩ ∧
      fsFind p (events.foldl LooseFiles.Writer.writeStep
        (⟨some (Hasher.new .blake2b), p⟩, fs0)).2 = some bs ∧
      ((events.foldl LooseFiles.Writer.writeStep
          (⟨some (Hasher.new .blake2b), p⟩, fs0)).1.store
        (events.foldl LooseFiles.Writer.writeStep
          (⟨some (Hasher.new .blake2b), p⟩, fs0)).2 false false false).2.2 =
        .ok (Hash.blake2b (blake2b BLAKE2B_LEN bs)) := by
  exact C5_hasher_matches_file
    [WriteEvent.wrote [1, 2, 3] 2, WriteEvent.failed [9],
      WriteEvent.wrote [4, 5] 2]
    [List.replicate 4 't'] [([List.replicate 4 't'], [])] (by decide)

/-- C8: dropping a writer that never stored deletes its temp file, with
deletion failure tolerated rather than escalated; the writer returned by
a successful `store` has no hasher left and its drop changes nothing. -/
theorem C8_drop_semantics (w : LooseFiles.Writer) (fs fs2 fs3 : Fs)
    (delOk : Bool) :
    (w.hasher.isSome →
      w.drop true fs = fsErase w.path fs ∧ w.drop false fs = fs) ∧
    ((w.store fs2 false false false).2.2 =
        .ok ((w.hasher.getD (Hasher.new .blake2b)).result) ∧
      (w.store fs2 false false false).1.hasher = none ∧
      (w.store fs2 false false false).1.drop delOk fs3 = fs3) := by
  refine ⟨fun hs => ⟨?_, ?_⟩, ?_, ?_, ?_⟩
  · rw [LooseFiles.Writer.drop, if_pos hs, if_pos rfl]
  · rw [LooseFiles.Writer.drop, if_pos hs]
    rfl
  · rw [store_happy]
  · rw [store_happy]
  · rw [store_happy]
    rfl

/-- C8 witness at a staging writer over a one-file store. -/
theorem C8_drop_semantics_witness :
    ((⟨some (Hasher.new .blake2b), [List.replicate 4 't']⟩ :
        LooseFiles.Writer).drop true [([List.replicate 4 't'], [1])] =
      fsErase [List.replicate 4 't'] [([List.replicate 4 't'], [1])] ∧
    (⟨some (Hasher.new .blake2b), [List.replicate 4 't']⟩ :
        LooseFiles.Writer).drop false [([List.replicate 4 't'], [1])] =
      [([List.replicate 4 't'], [1])]) ∧
    ((⟨some (Hasher.new .blake2b), [List.replicate 4 't']⟩ :
        LooseFiles.Writer).store [] false false false).1.drop true [([[]], [2])] =
      [([[]], [2])] :=
  ⟨(C8_drop_semantics ⟨some (Hasher.new .blake2b), [List.replicate 4 't']⟩
      [([List.replicate 4 't'], [1])] [] [([[]], [2])] true).1 (by decide),
   (C8_drop_semantics ⟨some (Hasher.new .blake2b), [List.replicate 4 't']⟩
      [([List.replicate 4 't'], [1])] [] [([[]], [2])] true).2.2.2⟩

/-- C10: if `store` fails at any of its fallible steps, the hasher has
already been taken, so the returned writer's drop performs no cleanup and
the temp file remains on disk with its contents intact. -/
theorem C10_store_failure_orphan (w : LooseFiles.Writer) (fs : Fs)
    (content : List Nat) (fd fsy fr delOk : Bool)
    (hc : fsFind w.path fs = some content)
    (hfail : fd = true ∨ fsy = true ∨ fr = true) :
    (w.store fs fd fsy fr).2.2 = .error () ∧
    (w.store fs fd fsy fr).1.hasher = none ∧
    fsFind w.path (w.store fs fd fsy fr).2.1 = some content ∧
    (w.store fs fd fsy fr).1.drop delOk (w.store fs fd fsy fr).2.1 =
      (w.store fs fd fsy fr).2.1 := by
  cases fd <;> cases fsy <;> cases fr <;>
    first
      | exact ⟨rfl, rfl, hc, rfl⟩
      | simp at hfail

/-- C10 witness: a failed rename leaves the temp file in place. -/
theorem C10_store_failure_orphan_witness :
    ((⟨some (Hasher.new .blake2b), [List.replicate 4 't']⟩ :
        LooseFiles.Writer).store [([List.replicate 4 't'], [5, 6])]
      false false true).2.2 = .error () ∧
    ((⟨some (Hasher.new .blake2b), [List.replicate 4 't']⟩ :
        LooseFiles.Writer).store [([List.replicate 4 't'], [5, 6])]
      false false true).1.hasher = none ∧
    fsFind [List.replicate 4 't']
      ((⟨some (Hasher.new .blake2b), [List.replicate 4 't']⟩ :
        LooseFiles.Writer).store [([List.replicate 4 't'], [5, 6])]
        false false true).2.1 = some [5, 6] ∧
    ((⟨some (Hasher.new .blake2b), [List.replicate 4 't']⟩ :
        LooseFiles.Writer).store [([List.replicate 4 't'], [5, 6])]
        false false true).1.drop true
      ((⟨some (Hasher.new .blake2b), [List.replicate 4 't']⟩ :
        LooseFiles.Writer).store [([List.replicate 4 't'], [5, 6])]
        false false true).2.1 =
    ((⟨some (Hasher.new .blake2b), [List.replicate 4 't']⟩ :
        LooseFiles.Writer).store [([List.replicate 4 't'], [5, 6])]
        false false true).2.1 :=
  C10_store_failure_orphan ⟨some (Hasher.new .blake2b), [List.replicate 4 't']⟩
    [([List.replicate 4 't'], [5, 6])] [5, 6] false false true true
    (by decide) (Or.inr (Or.inr rfl))

/-! ## Lemmas: the archive set -/

theorem openGo_error :
    ∀ (files : List ArchiveFile) (acc : Groups),
      (∃ f ∈ files, archiveKind f = none ∨
        ∃ k, archiveKind f = some k ∧ k.len ≠ f.key_len) →
      ∃ e, ArchiveSet.openGo files acc = .error e := by
  intro files
  induction files with
  | nil =>
    intro acc h
    simp at h
  | cons f rest ih =>
    intro acc hbad
    rw [ArchiveSet.openGo]
    by_cases hp : f.parseOk = true
    · rw [if_neg (by simp [hp])]
      cases hext : f.ext with
      | none => exact ⟨_, rfl⟩
      | some lohi =>
        obtain ⟨lo, hi⟩ := lohi
        show ∃ e,
          (match HashKind.from_id (Nat.lor lo (Nat.shiftLeft hi 8)) with
            | none => Except.error "archive uses unknown hash kind".toList
            | some k =>
              if k.len ≠ f.key_len then
                Except.error "archive key length doesn't match hash type".toList
              else ArchiveSet.openGo rest (groupsInsert k f.entries acc)) =
            Except.error e
        cases hid : HashKind.from_id (Nat.lor lo (Nat.shiftLeft hi 8)) with
        | none => exact ⟨_, rfl⟩
        | some k =>
          by_cases hlen : k.len = f.key_len
          · show ∃ e,
              (if k.len ≠ f.key_len then
                  Except.error "archive key length doesn't match hash type".toList
                else ArchiveSet.openGo rest (groupsInsert k f.entries acc)) =
                Except.error e
            rw [if_neg (by simp [hlen])]
            apply ih
            rcases hbad with ⟨g, hg, hbadg⟩
            rcases List.mem_cons.mp hg with hg | hg
            · exfalso
              subst hg
              have hak : archiveKind g = some k := by
                rw [archiveKind, hext]
                show HashKind.from_id (Nat.lor lo (Nat.shiftLeft hi 8)) = some k
                exact hid
              rcases hbadg with h1 | ⟨k2, hk2, hlen2⟩
              · rw [hak] at h1
                exact Option.noConfusion h1
              · rw [hak] at hk2
                exact hlen2 ((Option.some.inj hk2) ▸ hlen)
            · exact ⟨g, hg, hbadg⟩
          · show ∃ e,
              (if k.len ≠ f.key_len then
                  Except.error "archive key length doesn't match hash type".toList
                else ArchiveSet.openGo rest (groupsInsert k f.entries acc)) =
                Except.error e
            rw [if_pos (by simp [hlen])]
            exact ⟨_, rfl⟩
    · rw [if_pos (by simp [hp])]
      exact ⟨_, rfl⟩

/-- C6: `ArchiveSet::open` fails the entire open — admitting no archives
— whenever any file in the directory has an unrecognized algorithm tag in
its 2-byte little-endian extension field or a declared key length that
differs from the tag's digest length. -/
theorem C6_open_rejects_malformed (files : List ArchiveFile)
    (hbad : ∃ f ∈ files, archiveKind f = none ∨
      ∃ k, archiveKind f = some k ∧ k.len ≠ f.key_len) :
    ∃ e, ArchiveSet.open files = .error e :=
  openGo_error files [] hbad

/-- C6 witness: one well-formed archive followed by one whose extension
declares the unknown tag id 1, and separately a blake2b archive whose
declared key length is 24. -/
theorem C6_open_rejects_malformed_witness :
    (∃ e, ArchiveSet.open
      [⟨true, some (0, 0), 25, []⟩, ⟨true, some (1, 0), 25, []⟩] = .error e) ∧
    (∃ e, ArchiveSet.open [⟨true, some (0, 0), 24, []⟩] = .error e) :=
  ⟨C6_open_rejects_malformed _
      ⟨⟨true, some (1, 0), 25, []⟩, by simp, Or.inl (by decide)⟩,
   C6_open_rejects_malformed _
      ⟨⟨true, some (0, 0), 24, []⟩, by simp,
        Or.inr ⟨.blake2b, by decide, by decide⟩⟩⟩

theorem scanArchives_append_none (key : List Nat) (al1 al2 : List Archive)
    (h : ∀ a ∈ al1, archiveLookup key a = none) :
    scanArchives key (al1 ++ al2) = scanArchives key al2 := by
  induction al1 with
  | nil => rfl
  | cons a al1 ih =>
    rw [List.cons_append, scanArchives, h a (by simp)]
    exact ih (fun b hb => h b (by simp [hb]))

theorem scanArchives_none (key : List Nat) (al : List Archive)
    (h : ∀ a ∈ al, archiveLookup key a = none) :
    scanArchives key al = none := by
  induction al with
  | nil => rfl
  | cons a al ih =>
    rw [scanArchives, h a (by simp)]
    exact ih (fun b hb => h b (by simp [hb]))

/-- C7: `get` consults only the group of the digest's kind, scans its
archives in open order, returns the first archive's value for the key
(later duplicates are never returned), and yields `none` when no group or
no archive holds the digest. -/
theorem C7_get_first_match_wins (gs : Groups) (h : Hash) :
    (groupsFind h.kind gs = none → ArchiveSet.get gs h = none) ∧
    (∀ al, groupsFind h.kind gs = some al →
      (∀ al1 a al2 v, al = al1 ++ a :: al2 →
        (∀ b ∈ al1, archiveLookup h.bytes b = none) →
        archiveLookup h.bytes a = some v →
        ArchiveSet.get gs h = some v) ∧
      ((∀ a ∈ al, archiveLookup h.bytes a = none) →
        ArchiveSet.get gs h = none)) := by
  constructor
  · intro hn
    rw [ArchiveSet.get, hn]
  · intro al hal
    constructor
    · intro al1 a al2 v hsplit hnone hsome
      rw [ArchiveSet.get, hal]
      show scanArchives h.bytes al = some v
      rw [hsplit, scanArchives_append_none _ _ _ hnone, scanArchives, hsome]
    · intro hnone
      rw [ArchiveSet.get, hal]
      show scanArchives h.bytes al = none
      exact scanArchives_none _ _ hnone

/-- C7 witness: two archives in the blake2b group both contain key `[1]`;
`get` returns the value from the first-opened archive; a digest absent
from both archives yields `none`. -/
theorem C7_get_first_match_wins_witness :
    ArchiveSet.get [(.blake2b, [[([1], [10])], [([1], [99])]])]
      (Hash.blake2b [1]) = some [10] ∧
    ArchiveSet.get [(.blake2b, [[([1], [10])], [([1], [99])]])]
      (Hash.blake2b [2]) = none :=
  ⟨((C7_get_first_match_wins [(.blake2b, [[([1], [10])], [([1], [99])]])]
      (Hash.blake2b [1])).2 [[([1], [10])], [([1], [99])]] (by decide)).1
      [] [([1], [10])] [[([1], [99])]] [10] rfl (by simp) (by decide),
   ((C7_get_first_match_wins [(.blake2b, [[([1], [10])], [([1], [99])]])]
      (Hash.blake2b [2])).2 [[([1], [10])], [([1], [99])]] (by decide)).2
      (by decide)⟩
